import Mathlib

/-!
Verification of the `vision` modal text editor's core engine against its
specification.  The Rust sources (`buffer.rs`, `history.rs`, `command.rs`,
`mode.rs`, `utils.rs`) are shallowly embedded below: `Vec<T>` becomes
`List T`, fallible `Vec` indexing operations that panic in Rust
(`Vec::insert` past the length, `Vec::remove` out of range) are modelled
as `Option`-returning helpers where `none` means the process panicked,
and terminal/file-system side effects are modelled by returning the data
that would be written.
-/

namespace Vision

/-! ### Character constants (written by codepoint to keep the file ASCII-clean) -/

def lbraceC : Char := Char.ofNat 123
def rbraceC : Char := Char.ofNat 125
def lparenC : Char := Char.ofNat 40
def rparenC : Char := Char.ofNat 41
def lbrackC : Char := Char.ofNat 91
def rbrackC : Char := Char.ofNat 93
def squoteC : Char := Char.ofNat 39
def dquoteC : Char := Char.ofNat 34
def btickC  : Char := Char.ofNat 96
def newlineByte : Nat := 10

/-! ### `Vec` panicking primitives

`vecInsert l i x` models Rust `Vec::insert(i, x)`: inserts when `i ≤ len`,
panics (`none`) otherwise.  `vecRemove l i` models `Vec::remove(i)`:
removes when `i < len`, panics otherwise. -/

def vecInsert (l : List α) (i : Nat) (x : α) : Option (List α) :=
  if i ≤ l.length then some (l.insertIdx i x) else none

def vecRemove (l : List α) (i : Nat) : Option (List α) :=
  if i < l.length then some (l.eraseIdx i) else none

/-! ### `buffer.rs`: `Action`, `Edit`, `History` -/

/-- `Action` enum from `buffer.rs`. -/
inductive Action where
  | Do
  | Undo
  | Redo
deriving DecidableEq

/-- `Edit` enum from `buffer.rs` (one case per mutation kind). -/
inductive Edit where
  | insertChar (row col : Nat) (c : Char)
  | deleteChar (row col : Nat) (deleted : Char)
  | setLine (row : Nat) (oldLine newLine : List Char)
  | insertLine (row : Nat) (line : List Char)
  | deleteLine (row : Nat) (deleted : List Char)
deriving DecidableEq

/-- `History` struct from `buffer.rs`: two stacks of edits.  Stacks are
modelled with the most recent element at the head of the list (Rust pushes
and pops at the end of the `Vec`). -/
structure History where
  edits : List Edit
  undos : List Edit
deriving DecidableEq

/-- `History::new`. -/
def History.new : History := ⟨[], []⟩

/-- `History::update`: `Do` pushes onto `edits`; `Undo` moves the top of
`edits` onto `undos` (ignoring the passed event); `Redo` moves the top of
`undos` back onto `edits`. -/
def History.update (h : History) (_event : Edit) (action : Action) : History :=
  match action with
  | Action.Do => { h with edits := _event :: h.edits }
  | Action.Undo =>
      match h.edits with
      | [] => h
      | prevEdit :: rest => { edits := rest, undos := prevEdit :: h.undos }
  | Action.Redo =>
      match h.undos with
      | [] => h
      | prevUndo :: rest => { edits := prevUndo :: h.edits, undos := rest }

/-- `History::last_from`: peek the stack the given action would consume. -/
def History.lastFrom (h : History) (action : Action) : Option Edit :=
  match action with
  | Action.Do | Action.Redo => h.undos.head?
  | Action.Undo => h.edits.head?

/-! ### `buffer.rs`: `Buffer` -/

/-- `Buffer` struct from `buffer.rs`.  `start` is the scroll offset. -/
structure Buffer where
  path : Option String
  modified : Bool
  data : List (List Char)
  start : Nat
  history : History
deriving DecidableEq

/-- `impl Default for Buffer`. -/
def Buffer.default : Buffer :=
  { modified := false, start := 0, path := none, data := [[]], history := History.new }

/-- `Buffer::new`. -/
def Buffer.new (path : Option String) : Buffer :=
  { Buffer.default with path := path }

/-- `Buffer::from(path, data)`. -/
def Buffer.fromData (path : String) (data : List (List Char)) : Buffer :=
  { Buffer.default with path := some path, data := data }

/-- `impl FromStr for Buffer`, modelled on the list of lines read from the
file: an empty file yields a single empty line. -/
def Buffer.fromFileLines (path : String) (fileLines : List (List Char)) : Buffer :=
  Buffer.fromData path (if fileLines.isEmpty then [[]] else fileLines)

/-- `Buffer::length`. -/
def Buffer.length (b : Buffer) : Nat := b.data.length

/-- `Buffer::get_line`. -/
def Buffer.getLine (b : Buffer) (line : Nat) : Option (List Char) :=
  b.data[line + b.start]?

/-- `Buffer::set_line` (records the raw viewport-relative `line` in the edit). -/
def Buffer.setLine (b : Buffer) (line : Nat) (newLine : List Char) (action : Action) : Buffer :=
  match b.data[line + b.start]? with
  | none => b
  | some oldLine =>
      { b with modified := true,
               history := b.history.update (Edit.setLine line oldLine newLine) action,
               data := b.data.set (line + b.start) newLine }

/-- `Buffer::insert_line`: when `row < data.len()` it records `row + start`
and inserts at `row + start` (which can panic, `none`); otherwise it records
the raw `row` and appends. -/
def Buffer.insertLine (b : Buffer) (row : Nat) (line : List Char) (action : Action) :
    Option Buffer :=
  if row < b.data.length then
    match vecInsert b.data (row + b.start) line with
    | none => none
    | some newData =>
        some { b with history := b.history.update (Edit.insertLine (row + b.start) line) action,
                      data := newData, modified := true }
  else
    some { b with history := b.history.update (Edit.insertLine row line) action,
                  data := b.data ++ [line], modified := true }

/-- `Buffer::get_char`. -/
def Buffer.getChar (b : Buffer) (line col : Nat) : Option Char :=
  (b.data[line + b.start]?).bind fun l => l[col]?

/-- `Buffer::delete_char`: removes the character at `col` when present,
recording the raw `row` and the deleted character. -/
def Buffer.deleteChar (b : Buffer) (row col : Nat) (action : Action) : Buffer :=
  match b.data[row + b.start]? with
  | none => b
  | some line =>
      if col < line.length then
        let deleted := line.getD col (Char.ofNat 0)
        { b with data := b.data.set (row + b.start) (line.eraseIdx col),
                 modified := true,
                 history := b.history.update (Edit.deleteChar row col deleted) action }
      else b

/-- `Buffer::insert_char`: pushes at the end when `col > line.len()`,
otherwise inserts at `col`; records the raw `row` and `col` either way. -/
def Buffer.insertChar (b : Buffer) (row col : Nat) (c : Char) (action : Action) : Buffer :=
  match b.data[row + b.start]? with
  | none => b
  | some line =>
      let newLine := if col > line.length then line ++ [c] else line.insertIdx col c
      { b with data := b.data.set (row + b.start) newLine,
               modified := true,
               history := b.history.update (Edit.insertChar row col c) action }

/-- `Buffer::delete_line`: guards with `row < data.len()`, reads the deleted
line at the raw `row`, but removes at `row + start` (which can panic, `none`). -/
def Buffer.deleteLine (b : Buffer) (row : Nat) (action : Action) : Option Buffer :=
  if row < b.data.length then
    match b.data[row]? with
    | none => none
    | some deleted =>
        match vecRemove b.data (row + b.start) with
        | none => none
        | some newData =>
            some { b with
                     history := b.history.update (Edit.deleteLine (row + b.start) deleted) action,
                     data := newData, modified := true }
  else some b

/-- `Buffer::undo`: peeks the `edits` stack and replays the inverse
mutation with action `Undo` (the mutation's own `History::update` call pops
the stack). -/
def Buffer.undo (b : Buffer) : Option Buffer :=
  match b.history.lastFrom Action.Undo with
  | none => some b
  | some edit =>
      match edit with
      | Edit.insertChar row col _ => some (b.deleteChar row col Action.Undo)
      | Edit.deleteChar row col deleted => some (b.insertChar row col deleted Action.Undo)
      | Edit.setLine row oldLine _ => some (b.setLine row oldLine Action.Undo)
      | Edit.insertLine row _ => b.deleteLine row Action.Undo
      | Edit.deleteLine row deleted => b.insertLine row deleted Action.Undo

/-- `Buffer::redo`: peeks the `undos` stack and replays the mutation with
action `Redo`. -/
def Buffer.redo (b : Buffer) : Option Buffer :=
  match b.history.lastFrom Action.Redo with
  | none => some b
  | some edit =>
      match edit with
      | Edit.insertChar row col c => some (b.insertChar row col c Action.Redo)
      | Edit.deleteChar row col _ => some (b.deleteChar row col Action.Redo)
      | Edit.setLine row _ newLine => some (b.setLine row newLine Action.Redo)
      | Edit.insertLine row line => b.insertLine row line Action.Redo
      | Edit.deleteLine row _ => b.deleteLine row Action.Redo

/-- Helper for `Buffer::bytes`: walks the lines with their index `i`,
emitting each character truncated to a byte (`as u8`) and then a newline
whenever `i != total` (the condition written in the source). -/
def bytesAux (total : Nat) : Nat → List (List Char) → List Nat
  | _, [] => []
  | i, line :: rest =>
      line.map (fun c => c.toNat % 256) ++
        (if i ≠ total then [newlineByte] else []) ++ bytesAux total (i + 1) rest

/-- `Buffer::bytes`. -/
def Buffer.bytes (b : Buffer) : List Nat :=
  bytesAux b.data.length 0 b.data

/-- `Buffer::write`: fails when `path` is unset; otherwise models
`fs::write` by returning the target path and the bytes written. -/
def Buffer.write (b : Buffer) : Except String (String × List Nat) :=
  match b.path with
  | none => Except.error "Path is empty"
  | some p => Except.ok (p, b.bytes)

/-! ### `command.rs` -/

/-- `CommandError` enum. -/
inductive CommandError where
  | UnknownCommand
deriving DecidableEq

/-- `RunError` enum. -/
inductive RunError where
  | UnknownPath
  | QuitOnModified
deriving DecidableEq

/-- Result of running a quit-capable command: the process either exits
with a code (after the terminal restore side effects) or the run fails. -/
inductive QuitOutcome where
  | exited (code : Nat)
  | failed (e : RunError)
deriving DecidableEq

structure QuitCommand where
  discard : Bool
deriving DecidableEq

/-- `impl Run for QuitCommand`: exits with code 0 when `discard` is set or
the buffer is unmodified, else fails with `QuitOnModified`.  The buffer is
returned unchanged (the source never mutates it here). -/
def QuitCommand.run (q : QuitCommand) (buffer : Buffer) : QuitOutcome × Buffer :=
  if q.discard || !buffer.modified then (QuitOutcome.exited 0, buffer)
  else (QuitOutcome.failed RunError.QuitOnModified, buffer)

/-- Result of `SaveCommand::run`: the run result, the buffer afterwards,
and the file write performed (path and bytes), if any. -/
structure SaveResult where
  result : Except RunError Unit
  buffer : Buffer
  written : Option (String × List Nat)

/-- `impl Run for SaveCommand`: fails with `UnknownPath` when the buffer
has no path; otherwise writes to disk and clears `modified` when the
buffer is modified, and does nothing when it is not. -/
def SaveCommand.run (buffer : Buffer) : SaveResult :=
  if buffer.path.isNone then
    ⟨Except.error RunError.UnknownPath, buffer, none⟩
  else
    if buffer.modified then
      match buffer.write with
      | Except.error _ => ⟨Except.error RunError.UnknownPath, buffer, none⟩
      | Except.ok w => ⟨Except.ok (), { buffer with modified := false }, some w⟩
    else ⟨Except.ok (), buffer, none⟩

/-- `Command` enum. -/
inductive Command where
  | Quit (q : QuitCommand)
  | Save
  | SaveQuit
deriving DecidableEq

/-- `impl FromStr for Command`. -/
def Command.fromStr (s : String) : Except CommandError Command :=
  if s = "q" then Except.ok (Command.Quit ⟨false⟩)
  else if s = "q!" then Except.ok (Command.Quit ⟨true⟩)
  else if s = "w" then Except.ok Command.Save
  else if s = "wq" then Except.ok Command.SaveQuit
  else Except.error CommandError.UnknownCommand

/-! ### `utils.rs` pairing policy -/

/-- `utils::closeable`. -/
def closeable (c1 : Char) : Option Char :=
  if c1 = lbraceC then some rbraceC
  else if c1 = lparenC then some rparenC
  else if c1 = lbrackC then some rbrackC
  else if c1 = squoteC then some squoteC
  else if c1 = dquoteC then some dquoteC
  else if c1 = btickC then some btickC
  else none

/-- `utils::openeable`. -/
def openeable (c1 : Char) : Option Char :=
  if c1 = rbraceC then some lbraceC
  else if c1 = rparenC then some lparenC
  else if c1 = rbrackC then some lbrackC
  else if c1 = squoteC then some squoteC
  else if c1 = dquoteC then some dquoteC
  else if c1 = btickC then some btickC
  else none

/-- `utils::braces`. -/
def braces (opening closing : Char) : Bool :=
  (opening = lbraceC && closing = rbraceC) ||
  (opening = lbrackC && closing = rbrackC) ||
  (opening = lparenC && closing = rparenC)

/-- `utils::pair`. -/
def pair (c1 c2 : Char) : Bool :=
  braces c1 c2 ||
  (c1 = squoteC && c2 = squoteC) ||
  (c1 = dquoteC && c2 = dquoteC) ||
  (c1 = btickC && c2 = btickC)

/-! ### `mode.rs`: `InsertMode::process_char`

The editor's file is the buffer; the terminal cursor column is threaded
explicitly (`MoveRight(1)` becomes `col + 1`).  The `expect` on
`get_line` when `col != 0` is modelled as `none` (panic). -/

/-- The fall-through insertion path of `InsertMode::process_char`: insert
the typed character, advance the cursor, then auto-insert the matching
closer (without advancing) when the character is `closeable`. -/
def processCharInsert (file : Buffer) (col row : Nat) (c : Char) : Buffer × Nat :=
  let file1 := file.insertChar row col c Action.Do
  match closeable c with
  | some closing => (file1.insertChar row (col + 1) closing Action.Do, col + 1)
  | none => (file1, col + 1)

/-- `InsertMode::process_char`: when `col != 0` and the character under the
cursor equals the typed closing literal, just move right; otherwise insert
(with auto-pairing).  Returns the new buffer and cursor column, or `none`
when the `expect` on `get_line` panics. -/
def processChar (file : Buffer) (col row : Nat) (c : Char) : Option (Buffer × Nat) :=
  if col ≠ 0 then
    match file.getLine row with
    | none => none
    | some curLine =>
        if curLine[col]? = some c ∧ (openeable c).isSome then some (file, col + 1)
        else some (processCharInsert file col row c)
  else some (processCharInsert file col row c)

/-- `undoN b n` applies `Buffer.undo` `n` times, propagating a panic. -/
def Buffer.undoN (b : Buffer) : Nat → Option Buffer
  | 0 => some b
  | n + 1 =>
      match b.undo with
      | none => none
      | some b2 => b2.undoN n

/-- A single character edit on a fixed row: the operations quantified over
by the single-line undo property. -/
inductive CharOp where
  | ins (col : Nat) (c : Char)
  | del (col : Nat)
deriving DecidableEq

/-- Apply one `CharOp` at the given row with action `Do`. -/
def Buffer.applyCharOp (b : Buffer) (row : Nat) : CharOp → Buffer
  | CharOp.ins col c => b.insertChar row col c Action.Do
  | CharOp.del col => b.deleteChar row col Action.Do

/-- Apply a sequence of `CharOp`s at the given row with action `Do`. -/
def Buffer.applyCharOps (b : Buffer) (row : Nat) : List CharOp → Buffer
  | [] => b
  | op :: rest => (b.applyCharOp row op).applyCharOps row rest

/-- An insertion is in-bounds when its column does not exceed the current
length of the addressed line (deletions need no side condition). -/
def charOpOk (b : Buffer) (row : Nat) : CharOp → Bool
  | CharOp.ins col _ =>
      match b.data[row + b.start]? with
      | some l => decide (col ≤ l.length)
      | none => true
  | CharOp.del _ => true

/-- All operations of the sequence are in-bounds at their application time. -/
def charOpsOk (b : Buffer) (row : Nat) : List CharOp → Bool
  | [] => true
  | op :: rest => charOpOk b row op && charOpsOk (b.applyCharOp row op) row rest

/-! ### List helper lemmas -/

theorem set_getElem?_self : ∀ (l : List α) (i : Nat) (a : α), l[i]? = some a → l.set i a = l
  | [], i, a, h => by simp at h
  | x :: t, 0, a, h => by simp at h; simp [h]
  | x :: t, i + 1, a, h => by
      simp only [List.getElem?_cons_succ] at h
      simp [List.set_cons_succ, set_getElem?_self t i a h]

theorem eraseIdx_concat_self : ∀ (l : List α) (x : α), (l ++ [x]).eraseIdx l.length = l
  | [], x => rfl
  | y :: t, x => by simp [List.eraseIdx_cons_succ, eraseIdx_concat_self t x]

theorem insertIdx_getD_eraseIdx :
    ∀ (l : List α) (n : Nat) (d : α), n < l.length →
      (l.eraseIdx n).insertIdx n (l.getD n d) = l
  | [], n, d, h => by simp at h
  | x :: t, 0, d, _ => by simp
  | x :: t, n + 1, d, h => by
      simp only [List.eraseIdx_cons_succ, List.getD_cons_succ, List.insertIdx_succ_cons]
      exact congrArg (x :: ·) (insertIdx_getD_eraseIdx t n d (by simpa using h))

theorem lt_length_of_getElem?_some {l : List α} {i : Nat} {a : α} (h : l[i]? = some a) :
    i < l.length :=
  (List.getElem?_eq_some_iff.mp h).1

/-! ### Claim C4: `History::update` with `Do` never clears the undone stack -/

/-- C4: `History::update` with action `Do` pushes the new edit onto the
done (`edits`) stack and leaves the undone (`undos`) stack unchanged, and
consequently the sequence insert `a`, undo, fresh insert `b`, redo
re-applies the previously undone (stale) record: the stale record is still
on the undone stack after the fresh edit, and the redo replays the old
insertion of `a`, yielding line content `ab`. -/
theorem c4_history_do_keeps_undone :
    (∀ (h : History) (e : Edit), h.update e Action.Do = { h with edits := e :: h.edits }) ∧
    ((Buffer.default.insertChar 0 0 'a' Action.Do).undo).map
        (fun b2 => (b2.insertChar 0 0 'b' Action.Do).history.undos) =
      some [Edit.insertChar 0 0 'a'] ∧
    (((Buffer.default.insertChar 0 0 'a' Action.Do).undo).bind
        (fun b2 => (b2.insertChar 0 0 'b' Action.Do).redo)).map Buffer.data =
      some [['a', 'b']] := by
  refine ⟨fun h e => rfl, by decide, by decide⟩

/-! ### Claim C2: out-of-range operations and the scrolled `delete_line` panic -/

/-- C2 (failing input): on a buffer with two lines and scroll offset
`start = 1`, `delete_line(1, Do)` passes the length guard (`1 < 2`) but
removes at index `1 + 1 = 2`, which is out of bounds: Rust's `Vec::remove`
panics (`none` in the model) instead of silently absorbing the call. -/
theorem c2_deleteLine_scrolled_panics :
    (Buffer.mk none false [['a'], ['b']] 1 History.new).deleteLine 1 Action.Do = none ∧
    1 < (Buffer.mk none false [['a'], ['b']] 1 History.new).data.length := by
  exact ⟨rfl, by decide⟩

/-! ### Claim C5: `Buffer::bytes` emits a newline after every line -/

/-- C5 (failing input): for the single line `a`, `bytes()` produces
`97, 10` — a newline after the last line as well, because the guard
`i != self.data.len()` is always true — whereas the claim requires the
plain concatenation `97` with newlines only between consecutive lines. -/
theorem c5_bytes_trailing_newline :
    (Buffer.fromData "f" [['a']]).bytes = [97, 10] ∧
    (Buffer.fromData "f" [['a']]).bytes ≠ [97] := by
  exact ⟨rfl, by decide⟩

/-! ### Claim C7: the Quit command -/

/-- C7: `QuitCommand::run` fails with the unsaved-changes error exactly
when the buffer is modified and the force (`discard`) flag is unset;
otherwise it terminates the process with exit code 0 (after the terminal
restore, which the model folds into the `exited` outcome); the buffer is
always left unchanged. -/
theorem c7_quit_contract : ∀ (b : Buffer) (d : Bool),
    ((QuitCommand.run ⟨d⟩ b).1 = QuitOutcome.failed RunError.QuitOnModified ↔
      (b.modified = true ∧ d = false)) ∧
    ((d = true ∨ b.modified = false) → (QuitCommand.run ⟨d⟩ b).1 = QuitOutcome.exited 0) ∧
    (QuitCommand.run ⟨d⟩ b).2 = b := by
  intro b d
  cases d <;> cases hm : b.modified <;> simp [QuitCommand.run, hm]

/-- C7 witness: a modified buffer blocks `q` but `q!` exits with code 0. -/
theorem c7_quit_contract_witness :
    (QuitCommand.run ⟨false⟩ { Buffer.default with modified := true }).1 =
      QuitOutcome.failed RunError.QuitOnModified ∧
    (QuitCommand.run ⟨true⟩ { Buffer.default with modified := true }).1 =
      QuitOutcome.exited 0 :=
  ⟨(c7_quit_contract { Buffer.default with modified := true } false).1.mpr ⟨rfl, rfl⟩,
   (c7_quit_contract { Buffer.default with modified := true } true).2.1 (Or.inl rfl)⟩

/-! ### Claim C8: the Save command -/

/-- C8: `SaveCommand::run` fails with the missing-path error (leaving the
buffer unchanged and writing nothing) exactly when no path is set;
otherwise a modified buffer is written to disk (the stored path receives
the buffer's bytes) and the modified flag is cleared, and an unmodified
buffer succeeds without writing. -/
theorem c8_save_contract : ∀ (b : Buffer),
    ((SaveCommand.run b).result = Except.error RunError.UnknownPath ↔ b.path = none) ∧
    (b.path = none → (SaveCommand.run b).buffer = b ∧ (SaveCommand.run b).written = none) ∧
    (∀ p, b.path = some p → b.modified = true →
      (SaveCommand.run b).result = Except.ok () ∧
      (SaveCommand.run b).buffer = { b with modified := false } ∧
      (SaveCommand.run b).written = some (p, b.bytes)) ∧
    (b.path ≠ none → b.modified = false →
      (SaveCommand.run b).result = Except.ok () ∧
      (SaveCommand.run b).buffer = b ∧ (SaveCommand.run b).written = none) := by
  intro b
  cases hp : b.path <;> cases hm : b.modified <;>
    simp [SaveCommand.run, Buffer.write, hp, hm]

/-- C8 witness: the pathless default buffer fails with the missing-path
error; a modified buffer with path `f` is written and has its flag
cleared. -/
theorem c8_save_contract_witness :
    (SaveCommand.run Buffer.default).result = Except.error RunError.UnknownPath ∧
    (SaveCommand.run { Buffer.fromData "f" [['a']] with modified := true }).buffer =
      { { Buffer.fromData "f" [['a']] with modified := true } with modified := false } ∧
    (SaveCommand.run { Buffer.fromData "f" [['a']] with modified := true }).written =
      some ("f", ({ Buffer.fromData "f" [['a']] with modified := true } : Buffer).bytes) :=
  ⟨(c8_save_contract Buffer.default).1.mpr rfl,
   ((c8_save_contract { Buffer.fromData "f" [['a']] with modified := true }).2.2.1 "f"
      rfl rfl).2.1,
   ((c8_save_contract { Buffer.fromData "f" [['a']] with modified := true }).2.2.1 "f"
      rfl rfl).2.2⟩

/-! ### Length facts about the buffer mutations -/

theorem setLine_data_length (b : Buffer) (row : Nat) (l : List Char) (a : Action) :
    (b.setLine row l a).data.length = b.data.length := by
  unfold Buffer.setLine
  cases b.data[row + b.start]? <;> simp

theorem insertChar_data_length (b : Buffer) (row col : Nat) (c : Char) (a : Action) :
    (b.insertChar row col c a).data.length = b.data.length := by
  unfold Buffer.insertChar
  cases b.data[row + b.start]? <;> simp

theorem deleteChar_data_length (b : Buffer) (row col : Nat) (a : Action) :
    (b.deleteChar row col a).data.length = b.data.length := by
  unfold Buffer.deleteChar
  cases b.data[row + b.start]? with
  | none => rfl
  | some ln => by_cases h : col < ln.length <;> simp [h]

theorem insertLine_some_data_length {b : Buffer} {row : Nat} {l : List Char} {a : Action}
    {b2 : Buffer} (h : b.insertLine row l a = some b2) :
    b2.data.length = b.data.length + 1 := by
  unfold Buffer.insertLine vecInsert at h
  by_cases hr : row < b.data.length
  · simp only [if_pos hr] at h
    by_cases hi : row + b.start ≤ b.data.length
    · simp only [if_pos hi] at h
      injection h with h
      subst h
      simp [List.length_insertIdx _ _ hi]
    · simp [if_neg hi] at h
  · simp only [if_neg hr] at h
    injection h with h
    subst h
    simp

theorem deleteLine_some_cases {b : Buffer} {row : Nat} {a : Action} {b2 : Buffer}
    (h : b.deleteLine row a = some b2) :
    b2 = b ∨ b2.data.length + 1 = b.data.length := by
  unfold Buffer.deleteLine vecRemove at h
  by_cases hr : row < b.data.length
  · simp only [if_pos hr] at h
    cases hg : b.data[row]? with
    | none => simp [hg] at h
    | some del =>
        simp only [hg] at h
        by_cases hi : row + b.start < b.data.length
        · simp only [if_pos hi] at h
          injection h with h
          subst h
          right
          simp only [List.length_eraseIdx_of_lt hi]
          omega
        · simp [if_neg hi] at h
  · simp only [if_neg hr] at h
    injection h with h
    exact Or.inl h.symm

/-! ### Claim C1: non-emptiness of `lines` -/

/-- C1 (counterexample): `delete_line(0, Do)` on the default buffer (one
empty line) removes the last remaining line, leaving `lines` empty. -/
theorem c1_deleteLine_empties_buffer :
    (Buffer.default.deleteLine 0 Action.Do).map Buffer.data = some [] ∧
    Buffer.default.data = [[]] :=
  ⟨rfl, rfl⟩

/-- C1 (amended): every constructor establishes a non-empty `lines`
sequence (an empty document has exactly one empty line), and every
mutation operation preserves non-emptiness except a line deletion
performed on a buffer with fewer than two lines: `set_line`,
`insert_char`, `delete_char` and `insert_line` preserve it always, and
`delete_line` — as well as an `undo` whose top done record is a
line-insert or a `redo` whose top undone record is a line-delete (the
replays that delete a line) — preserves it given at least two lines;
`undo`/`redo` replaying any other record kind preserve it
unconditionally. -/
theorem c1_nonempty_invariant :
    Buffer.default.data = [[]] ∧
    (∀ p, (Buffer.new p).data = [[]]) ∧
    (∀ path, (Buffer.fromFileLines path []).data = [[]]) ∧
    (∀ path fileLines, 0 < fileLines.length →
      (Buffer.fromFileLines path fileLines).data = fileLines) ∧
    (∀ b : Buffer, 0 < b.data.length →
      (∀ row l a, 0 < (b.setLine row l a).data.length) ∧
      (∀ row col c a, 0 < (b.insertChar row col c a).data.length) ∧
      (∀ row col a, 0 < (b.deleteChar row col a).data.length) ∧
      (∀ row l a b2, b.insertLine row l a = some b2 → 0 < b2.data.length) ∧
      (∀ row a b2, 2 ≤ b.data.length → b.deleteLine row a = some b2 → 0 < b2.data.length) ∧
      (∀ b2, b.undo = some b2 →
        (2 ≤ b.data.length ∨
          ∀ row l, b.history.lastFrom Action.Undo ≠ some (Edit.insertLine row l)) →
        0 < b2.data.length) ∧
      (∀ b2, b.redo = some b2 →
        (2 ≤ b.data.length ∨
          ∀ row d, b.history.lastFrom Action.Redo ≠ some (Edit.deleteLine row d)) →
        0 < b2.data.length)) := by
  refine ⟨rfl, fun p => rfl, fun path => rfl, ?_, ?_⟩
  · intro path fileLines hlen
    unfold Buffer.fromFileLines
    rw [if_neg (by simp only [List.isEmpty_iff]; intro h; subst h; simp at hlen)]
    rfl
  · intro b hb
    have hdel : ∀ row a b2, 2 ≤ b.data.length → b.deleteLine row a = some b2 →
        0 < b2.data.length := by
      intro row a b2 h2 h
      rcases deleteLine_some_cases h with h | h
      · subst h; omega
      · omega
    have hins : ∀ row l a b2, b.insertLine row l a = some b2 → 0 < b2.data.length := by
      intro row l a b2 h
      rw [insertLine_some_data_length h]
      omega
    refine ⟨fun row l a => by rw [setLine_data_length]; exact hb,
            fun row col c a => by rw [insertChar_data_length]; exact hb,
            fun row col a => by rw [deleteChar_data_length]; exact hb,
            hins, hdel, ?_, ?_⟩
    · intro b2 h hcond
      unfold Buffer.undo at h
      rcases hc : b.history.lastFrom Action.Undo with _ | e
      · simp only [hc, Option.some.injEq] at h
        subst h
        exact hb
      · cases e with
        | insertChar row col c =>
            simp only [hc, Option.some.injEq] at h
            subst h
            rw [deleteChar_data_length]
            exact hb
        | deleteChar row col d =>
            simp only [hc, Option.some.injEq] at h
            subst h
            rw [insertChar_data_length]
            exact hb
        | setLine row o n =>
            simp only [hc, Option.some.injEq] at h
            subst h
            rw [setLine_data_length]
            exact hb
        | insertLine row l =>
            simp only [hc] at h
            rcases hcond with h2 | hne
            · exact hdel row Action.Undo b2 h2 h
            · exact absurd hc (hne row l)
        | deleteLine row d =>
            simp only [hc] at h
            exact hins row d Action.Undo b2 h
    · intro b2 h hcond
      unfold Buffer.redo at h
      rcases hc : b.history.lastFrom Action.Redo with _ | e
      · simp only [hc, Option.some.injEq] at h
        subst h
        exact hb
      · cases e with
        | insertChar row col c =>
            simp only [hc, Option.some.injEq] at h
            subst h
            rw [insertChar_data_length]
            exact hb
        | deleteChar row col d =>
            simp only [hc, Option.some.injEq] at h
            subst h
            rw [deleteChar_data_length]
            exact hb
        | setLine row o n =>
            simp only [hc, Option.some.injEq] at h
            subst h
            rw [setLine_data_length]
            exact hb
        | insertLine row l =>
            simp only [hc] at h
            exact hins row l Action.Redo b2 h
        | deleteLine row d =>
            simp only [hc] at h
            rcases hcond with h2 | hne
            · exact hdel row Action.Redo b2 h2 h
            · exact absurd hc (hne row d)

/-- C1 witness: the amended invariant applied to a concrete two-line
buffer for a line replacement, and to a concrete one-line buffer for an
undo whose top done record is not a line-insert (here the history is
empty), discharged through the non-line-deletion disjunct. -/
theorem c1_nonempty_invariant_witness :
    0 < ((Buffer.fromData "f" [[], []]).setLine 0 ['a'] Action.Do).data.length ∧
    0 < (Buffer.fromData "f" [[]]).data.length :=
  ⟨(c1_nonempty_invariant.2.2.2.2 (Buffer.fromData "f" [[], []]) (by decide)).1 0 ['a']
      Action.Do,
   (c1_nonempty_invariant.2.2.2.2 (Buffer.fromData "f" [[]]) (by decide)).2.2.2.2.2.1
      (Buffer.fromData "f" [[]]) rfl
      (Or.inr (fun row l hx => Option.noConfusion hx))⟩

/-! ### Claim C6: insert-then-delete round trip at the same row -/

/-- C6 (counterexample): on the default one-line buffer, `insert_line(5, _,
Do)` appends (since `5` exceeds the length) and the following
`delete_line(5, Do)` is a silent no-op (`5` is out of range of the grown
buffer), so the line count changes from 1 to 2. -/
theorem c6_out_of_range_roundtrip_fails :
    ((Buffer.default.insertLine 5 ['x'] Action.Do).bind
        (fun b1 => b1.deleteLine 5 Action.Do)).map Buffer.data = some [[], ['x']] ∧
    Buffer.default.data.length = 1 :=
  ⟨rfl, rfl⟩

/-- C6 (amended): whenever `row + scroll_offset` does not exceed the line
count, `insert_line(row, content, Do)` (which inserts before
`row + scroll_offset` when `row` is within the current length and appends
otherwise) followed immediately by `delete_line(row, Do)` leaves the
buffer's line contents — and hence its line count — unchanged. -/
theorem insertLine_eq_of_lt (b : Buffer) (row : Nat) (l : List Char) (a : Action)
    (hr : row < b.data.length) (hi : row + b.start ≤ b.data.length) :
    b.insertLine row l a =
      some { b with history := b.history.update (Edit.insertLine (row + b.start) l) a,
                    data := b.data.insertIdx (row + b.start) l, modified := true } := by
  unfold Buffer.insertLine vecInsert
  rw [if_pos hr, if_pos hi]

theorem insertLine_eq_append (b : Buffer) (row : Nat) (l : List Char) (a : Action)
    (hr : ¬ row < b.data.length) :
    b.insertLine row l a =
      some { b with history := b.history.update (Edit.insertLine row l) a,
                    data := b.data ++ [l], modified := true } := by
  unfold Buffer.insertLine
  rw [if_neg hr]

theorem deleteLine_eq (b : Buffer) (row : Nat) (a : Action) (v : List Char)
    (hr : row < b.data.length) (hv : b.data[row]? = some v)
    (hi : row + b.start < b.data.length) :
    b.deleteLine row a =
      some { b with history := b.history.update (Edit.deleteLine (row + b.start) v) a,
                    data := b.data.eraseIdx (row + b.start), modified := true } := by
  unfold Buffer.deleteLine vecRemove
  rw [if_pos hr]
  simp only [hv]
  rw [if_pos hi]

theorem c6_insert_delete_roundtrip (b : Buffer) (row : Nat) (l : List Char)
    (h : row + b.start ≤ b.data.length) :
    ∃ b1 b2, b.insertLine row l Action.Do = some b1 ∧
      b1.deleteLine row Action.Do = some b2 ∧ b2.data = b.data := by
  by_cases hr : row < b.data.length
  · have e1 := insertLine_eq_of_lt b row l Action.Do hr h
    set b1 : Buffer :=
      { b with history := b.history.update (Edit.insertLine (row + b.start) l) Action.Do,
               data := b.data.insertIdx (row + b.start) l, modified := true } with hb1
    have hlen : b1.data.length = b.data.length + 1 := List.length_insertIdx _ _ h
    have hrow2 : row < b1.data.length := by omega
    obtain ⟨v, hv⟩ : ∃ v, b1.data[row]? = some v := by
      cases hg : b1.data[row]? with
      | none => exact absurd (List.getElem?_eq_none_iff.mp hg) (by omega)
      | some v => exact ⟨v, rfl⟩
    have hi2 : row + b1.start < b1.data.length := by
      have : b1.start = b.start := rfl
      omega
    have e2 := deleteLine_eq b1 row Action.Do v hrow2 hv hi2
    refine ⟨b1, _, e1, e2, ?_⟩
    show b1.data.eraseIdx (row + b1.start) = b.data
    have : b1.data.eraseIdx (row + b.start) = b.data := by
      simp only [hb1]
      exact List.eraseIdx_insertIdx _ _
    exact this
  · have hrow : row = b.data.length := by omega
    have hstart : b.start = 0 := by omega
    have e1 := insertLine_eq_append b row l Action.Do hr
    set b1 : Buffer :=
      { b with history := b.history.update (Edit.insertLine row l) Action.Do,
               data := b.data ++ [l], modified := true } with hb1
    have hlen : b1.data.length = b.data.length + 1 := by simp [hb1]
    have hrow2 : row < b1.data.length := by omega
    have hv : b1.data[row]? = some l := by
      show (b.data ++ [l])[row]? = some l
      rw [hrow]
      exact List.getElem?_concat_length _ _
    have hi2 : row + b1.start < b1.data.length := by
      have : b1.start = b.start := rfl
      omega
    have e2 := deleteLine_eq b1 row Action.Do l hrow2 hv hi2
    refine ⟨b1, _, e1, e2, ?_⟩
    show b1.data.eraseIdx (row + b1.start) = b.data
    have hs : b1.start = b.start := rfl
    rw [hs, hstart, Nat.add_zero, hrow]
    exact eraseIdx_concat_self b.data l

/-- C6 witness: the round trip at row 0 of the default buffer. -/
theorem c6_insert_delete_roundtrip_witness :
    ((Buffer.default.insertLine 0 ['x'] Action.Do).bind
        (fun b1 => b1.deleteLine 0 Action.Do)).map Buffer.data = some [[]] := by
  obtain ⟨b1, b2, h1, h2, h3⟩ :=
    c6_insert_delete_roundtrip Buffer.default 0 ['x'] (by decide)
  simp [h1, h2, h3]
  rfl

/-! ### In-bounds characterization of `insert_char` -/

theorem insertChar_eq {b : Buffer} {row col : Nat} {c : Char} {a : Action} {ln : List Char}
    (hl : b.data[row + b.start]? = some ln) (hc : col ≤ ln.length) :
    b.insertChar row col c a =
      { b with data := b.data.set (row + b.start) (ln.insertIdx col c),
               modified := true,
               history := b.history.update (Edit.insertChar row col c) a } := by
  unfold Buffer.insertChar
  simp only [hl, gt_iff_lt, if_neg (show ¬ ln.length < col by omega)]

/-! ### Claim C9: auto-pairing on insertion -/

/-- C9: typing `(` on an empty line yields line content `()` with the
cursor between the two characters, and typing `)` there just moves the
cursor right, leaving the buffer untouched; in general, typing a
`closeable` opener inserts it together with its matching closer
immediately after (cursor after the opener), unless the skip condition
fires — the cursor column is nonzero, the character under the cursor
equals the typed character, and that character is a closer — in which
case the buffer is unchanged and only the cursor advances. -/
theorem c9_auto_pairing :
    (∃ b1, processChar Buffer.default 0 0 lparenC = some (b1, 1) ∧
       b1.getLine 0 = some [lparenC, rparenC] ∧
       processChar b1 1 0 rparenC = some (b1, 2)) ∧
    (∀ (b : Buffer) (row col : Nat) (c c2 : Char) (ln : List Char),
       closeable c = some c2 →
       b.getLine row = some ln →
       col ≤ ln.length →
       ¬(col ≠ 0 ∧ ln[col]? = some c ∧ (openeable c).isSome) →
       ∃ b2, processChar b col row c = some (b2, col + 1) ∧
         b2.getLine row = some ((ln.insertIdx col c).insertIdx (col + 1) c2)) ∧
    (∀ (b : Buffer) (row col : Nat) (c : Char) (ln : List Char),
       col ≠ 0 →
       b.getLine row = some ln →
       ln[col]? = some c →
       (openeable c).isSome →
       processChar b col row c = some (b, col + 1)) := by
  refine ⟨?_, ?_, ?_⟩
  · exact ⟨(Buffer.default.insertChar 0 0 lparenC Action.Do).insertChar 0 1 rparenC Action.Do,
      by decide, by decide, by decide⟩
  · intro b row col c c2 ln hcc hl hc hna
    have hidx : row + b.start < b.data.length := lt_length_of_getElem?_some hl
    have e1 := insertChar_eq (a := Action.Do) (c := c) hl hc
    have hl2 : (b.insertChar row col c Action.Do).data[row +
        (b.insertChar row col c Action.Do).start]? = some (ln.insertIdx col c) := by
      rw [e1]
      exact List.getElem?_set_self hidx
    have hc2 : col + 1 ≤ (ln.insertIdx col c).length := by
      rw [List.length_insertIdx _ _ hc]
      omega
    have e2 := insertChar_eq (a := Action.Do) (c := c2) hl2 hc2
    refine ⟨(b.insertChar row col c Action.Do).insertChar row (col + 1) c2 Action.Do, ?_, ?_⟩
    · unfold processChar
      by_cases h0 : col ≠ 0
      · rw [if_pos h0]
        simp only [show b.getLine row = some ln from hl]
        rw [if_neg (fun hcon => hna ⟨h0, hcon⟩)]
        unfold processCharInsert
        simp only [hcc]
      · rw [if_neg h0]
        unfold processCharInsert
        simp only [hcc]
    · rw [e2, e1]
      show (((b.data.set (row + b.start) (ln.insertIdx col c))).set (row + b.start)
          ((ln.insertIdx col c).insertIdx (col + 1) c2))[row + b.start]? = _
      exact List.getElem?_set_self (by simpa using hidx)
  · intro b row col c ln h0 hl hc ho
    unfold processChar
    rw [if_pos h0]
    simp only [show b.getLine row = some ln from hl]
    rw [if_pos ⟨hc, ho⟩]

/-- C9 witness: the skip branch applied to the concrete line `()` with the
cursor between the parentheses. -/
theorem c9_auto_pairing_witness :
    processChar (Buffer.fromData "f" [[lparenC, rparenC]]) 1 0 rparenC =
      some (Buffer.fromData "f" [[lparenC, rparenC]], 2) :=
  c9_auto_pairing.2.2 (Buffer.fromData "f" [[lparenC, rparenC]]) 0 1 rparenC
    [lparenC, rparenC] (by decide) rfl (by decide) (by decide)

/-! ### Claim C10: no skip-over at column 0 -/

/-- C10: the skip-over branch requires a nonzero cursor column, so for a
line whose first character is a closing delimiter `c`, typing `c` at
column 0 inserts a fresh copy of `c` at column 0 (together with the
auto-paired closer when `c` is also `closeable`, i.e. a quote): the line
grows instead of the cursor moving over the existing character. -/
theorem c10_no_skip_at_col_zero : ∀ (b : Buffer) (row : Nat) (c : Char) (ln : List Char),
    (openeable c).isSome →
    b.getLine row = some ln →
    ln.head? = some c →
    ∃ b2, processChar b 0 row c = some (b2, 1) ∧
      ((closeable c = none ∧ b2.getLine row = some (c :: ln)) ∨
       (∃ c2, closeable c = some c2 ∧ b2.getLine row = some (c :: c2 :: ln))) ∧
      (∀ l2, b2.getLine row = some l2 → ln.length < l2.length) := by
  intro b row c ln _ho hl _hh
  have hidx : row + b.start < b.data.length := lt_length_of_getElem?_some hl
  have e1 := insertChar_eq (a := Action.Do) (c := c) hl (Nat.zero_le _)
  cases hcc : closeable c with
  | none =>
      refine ⟨b.insertChar row 0 c Action.Do, ?_, Or.inl ⟨rfl, ?_⟩, ?_⟩
      · unfold processChar
        rw [if_neg (by simp)]
        unfold processCharInsert
        simp only [hcc]
      · rw [e1]
        show ((b.data.set (row + b.start) (ln.insertIdx 0 c)))[row + b.start]? = _
        rw [List.getElem?_set_self hidx]
        rfl
      · intro l2 hl2
        rw [e1] at hl2
        replace hl2 : some (c :: ln) = some l2 := by
          rw [← hl2]
          show _ = ((b.data.set (row + b.start) (ln.insertIdx 0 c)))[row + b.start]?
          rw [List.getElem?_set_self hidx]
          rfl
        injection hl2 with hl2
        subst hl2
        simp
  | some c2 =>
      have hl2 : (b.insertChar row 0 c Action.Do).data[row +
          (b.insertChar row 0 c Action.Do).start]? = some (c :: ln) := by
        rw [e1]
        exact List.getElem?_set_self hidx
      have e2 := insertChar_eq (a := Action.Do) (c := c2) hl2
        (show 1 ≤ (c :: ln).length by simp)
      refine ⟨(b.insertChar row 0 c Action.Do).insertChar row 1 c2 Action.Do, ?_,
        Or.inr ⟨c2, rfl, ?_⟩, ?_⟩
      · unfold processChar
        rw [if_neg (by simp)]
        unfold processCharInsert
        simp only [hcc]
      · rw [e2, e1]
        show (((b.data.set (row + b.start) (ln.insertIdx 0 c))).set (row + b.start)
            ((c :: ln).insertIdx 1 c2))[row + b.start]? = _
        rw [List.getElem?_set_self (by simpa using hidx)]
        rfl
      · intro l2 hl3
        rw [e2, e1] at hl3
        replace hl3 : some (c :: c2 :: ln) = some l2 := by
          rw [← hl3]
          show _ = (((b.data.set (row + b.start) (ln.insertIdx 0 c))).set (row + b.start)
              ((c :: ln).insertIdx 1 c2))[row + b.start]?
          rw [List.getElem?_set_self (by simpa using hidx)]
          rfl
        injection hl3 with hl3
        subst hl3
        simp
        omega

/-- C10 witness: typing `)` at column 0 of the line `)` grows the line to
`))` with the cursor at column 1. -/
theorem c10_no_skip_at_col_zero_witness :
    (processChar (Buffer.fromData "f" [[rparenC]]) 0 0 rparenC).map
      (fun p => (p.1.getLine 0, p.2)) = some (some [rparenC, rparenC], 1) := by
  obtain ⟨b2, h1, h2, _h3⟩ := c10_no_skip_at_col_zero (Buffer.fromData "f" [[rparenC]]) 0
    rparenC [rparenC] (by decide) rfl (by decide)
  rcases h2 with ⟨_, hg⟩ | ⟨c2, hc2, _⟩
  · rw [h1]
    simp [hg]
  · rw [show closeable rparenC = none from by decide] at hc2
    exact absurd hc2 (by simp)

/-! ### Claim C3: undo restores a single line -/

/-- C3 (counterexample): `insert_char(0, 5, x, Do)` on the line `ab`
appends `x` but records column 5; the subsequent `undo` finds no character
at column 5, so it changes nothing and — because the no-op `delete_char`
never calls `History::update` — never pops the done stack.  Undoing
repeatedly therefore neither exhausts the done stack nor restores the
original line. -/
theorem c3_stuck_undo_counterexample :
    ((Buffer.fromData "f" [['a', 'b']]).insertChar 0 5 'x' Action.Do).undo =
      some ((Buffer.fromData "f" [['a', 'b']]).insertChar 0 5 'x' Action.Do) ∧
    ((Buffer.fromData "f" [['a', 'b']]).insertChar 0 5 'x' Action.Do).data ≠
      (Buffer.fromData "f" [['a', 'b']]).data ∧
    ((Buffer.fromData "f" [['a', 'b']]).insertChar 0 5 'x' Action.Do).history.edits ≠ [] := by
  refine ⟨by decide, by decide, by decide⟩

theorem deleteChar_eq {b : Buffer} {row col : Nat} {ln : List Char} (a : Action)
    (hl : b.data[row + b.start]? = some ln) (hc : col < ln.length) :
    b.deleteChar row col a =
      { b with data := b.data.set (row + b.start) (ln.eraseIdx col),
               modified := true,
               history := b.history.update
                 (Edit.deleteChar row col (ln.getD col (Char.ofNat 0))) a } := by
  unfold Buffer.deleteChar
  simp only [hl, if_pos hc]

/-- With the top of the done stack a character-insert record whose column
is in range of the addressed line, `undo` removes that character and moves
the record to the undone stack. -/
theorem undo_insertChar_top {B : Buffer} {rest : List Edit} {row col : Nat} {c : Char}
    {ln : List Char}
    (he : B.history.edits = Edit.insertChar row col c :: rest)
    (hl : B.data[row + B.start]? = some ln)
    (hc : col < ln.length) :
    B.undo = some { B with data := B.data.set (row + B.start) (ln.eraseIdx col),
                           modified := true,
                           history := ⟨rest, Edit.insertChar row col c :: B.history.undos⟩ } := by
  have h1 : B.history.lastFrom Action.Undo = some (Edit.insertChar row col c) := by
    unfold History.lastFrom
    rw [he]
    rfl
  unfold Buffer.undo
  simp only [h1]
  rw [deleteChar_eq Action.Undo hl hc]
  have h2 : B.history.update (Edit.deleteChar row col (ln.getD col (Char.ofNat 0)))
      Action.Undo = ⟨rest, Edit.insertChar row col c :: B.history.undos⟩ := by
    unfold History.update
    rw [he]
  rw [h2]

/-- With the top of the done stack a character-delete record and the
recorded column within the addressed line, `undo` reinserts the recorded
character and moves the record to the undone stack. -/
theorem undo_deleteChar_top {B : Buffer} {rest : List Edit} {row col : Nat} {d : Char}
    {ln : List Char}
    (he : B.history.edits = Edit.deleteChar row col d :: rest)
    (hl : B.data[row + B.start]? = some ln)
    (hc : col ≤ ln.length) :
    B.undo = some { B with data := B.data.set (row + B.start) (ln.insertIdx col d),
                           modified := true,
                           history := ⟨rest, Edit.deleteChar row col d :: B.history.undos⟩ } := by
  have h1 : B.history.lastFrom Action.Undo = some (Edit.deleteChar row col d) := by
    unfold History.lastFrom
    rw [he]
    rfl
  unfold Buffer.undo
  simp only [h1]
  rw [insertChar_eq hl hc]
  have h2 : B.history.update (Edit.insertChar row col d) Action.Undo =
      ⟨rest, Edit.deleteChar row col d :: B.history.undos⟩ := by
    unfold History.update
    rw [he]
  rw [h2]

theorem undoN_succ_of {x y z : Buffer} {n : Nat} (h1 : x.undoN n = some y)
    (h2 : y.undo = some z) : x.undoN (n + 1) = some z := by
  induction n generalizing x with
  | zero =>
      injection h1 with h1
      subst h1
      show Buffer.undoN x 1 = some z
      unfold Buffer.undoN
      simp only [h2]
      rfl
  | succ n ih =>
      unfold Buffer.undoN at h1
      cases hx : x.undo with
      | none =>
          rw [hx] at h1
          exact Option.noConfusion h1
      | some w =>
          simp only [hx] at h1
          show Buffer.undoN x (n + 2) = some z
          unfold Buffer.undoN
          simp only [hx]
          exact ih h1

/-- Core induction: applying any in-bounds sequence of single-line
character edits and then undoing once per recorded edit restores the
buffer data, the scroll offset, the path and the done stack, while only
prepending to the undone stack. -/
theorem charOps_undo_restores : ∀ (ops : List CharOp) (b : Buffer) (row : Nat),
    charOpsOk b row ops = true →
    ∃ n b2, (b.applyCharOps row ops).undoN n = some b2 ∧
      (b.applyCharOps row ops).history.edits.length = n + b.history.edits.length ∧
      b2.data = b.data ∧ b2.start = b.start ∧ b2.path = b.path ∧
      b2.history.edits = b.history.edits ∧
      ∃ us, b2.history.undos = us ++ b.history.undos := by
  intro ops
  induction ops with
  | nil =>
      intro b row _
      exact ⟨0, b, rfl, (Nat.zero_add _).symm, rfl, rfl, rfl, rfl, [], rfl⟩
  | cons op rest ih =>
      intro b row hok
      have hok2 : charOpOk b row op = true ∧
          charOpsOk (b.applyCharOp row op) row rest = true := by
        have h := hok
        unfold charOpsOk at h
        simpa [Bool.and_eq_true] using h
      obtain ⟨n, b2, h1, hlen, hdata, hstart, hpath, hedits, us, hundos⟩ :=
        ih (b.applyCharOp row op) row hok2.2
      simp only [Buffer.applyCharOps]
      cases op with
      | ins col c =>
          cases hl : b.data[row + b.start]? with
          | none =>
              have hid : b.applyCharOp row (CharOp.ins col c) = b := by
                show b.insertChar row col c Action.Do = b
                unfold Buffer.insertChar
                simp only [hl]
              rw [hid] at h1 hlen hdata hstart hpath hedits hundos ⊢
              exact ⟨n, b2, h1, hlen, hdata, hstart, hpath, hedits, us, hundos⟩
          | some ln =>
              have hc : col ≤ ln.length := by
                have h := hok2.1
                unfold charOpOk at h
                rw [hl] at h
                exact of_decide_eq_true h
              have hidx : row + b.start < b.data.length := lt_length_of_getElem?_some hl
              have hstep : b.applyCharOp row (CharOp.ins col c) =
                  { b with data := b.data.set (row + b.start) (ln.insertIdx col c),
                           modified := true,
                           history := ⟨Edit.insertChar row col c :: b.history.edits,
                                       b.history.undos⟩ } := by
                show b.insertChar row col c Action.Do = _
                rw [insertChar_eq hl hc]
                rfl
              rw [hstep] at h1 hlen hdata hstart hpath hedits hundos ⊢
              have hb2l : b2.data[row + b2.start]? = some (ln.insertIdx col c) := by
                rw [hdata, hstart]
                exact List.getElem?_set_self hidx
              have hb2c : col < (ln.insertIdx col c).length := by
                rw [List.length_insertIdx _ _ hc]
                omega
              have hb2e : b2.history.edits = Edit.insertChar row col c :: b.history.edits :=
                hedits
              have hu := undo_insertChar_top hb2e hb2l hb2c
              refine ⟨n + 1, _, undoN_succ_of h1 hu, ?_, ?_, hstart, hpath, ?_, ?_⟩
              · rw [hlen]
                simp only [List.length_cons]
                omega
              · show b2.data.set (row + b2.start) ((ln.insertIdx col c).eraseIdx col) = b.data
                rw [List.eraseIdx_insertIdx, hdata, hstart, List.set_set]
                exact set_getElem?_self _ _ _ hl
              · rfl
              · exact ⟨Edit.insertChar row col c :: us, by
                  show Edit.insertChar row col c :: b2.history.undos = _
                  rw [hundos]
                  rfl⟩
      | del col =>
          cases hl : b.data[row + b.start]? with
          | none =>
              have hid : b.applyCharOp row (CharOp.del col) = b := by
                show b.deleteChar row col Action.Do = b
                unfold Buffer.deleteChar
                simp only [hl]
              rw [hid] at h1 hlen hdata hstart hpath hedits hundos ⊢
              exact ⟨n, b2, h1, hlen, hdata, hstart, hpath, hedits, us, hundos⟩
          | some ln =>
              by_cases hc : col < ln.length
              · have hidx : row + b.start < b.data.length := lt_length_of_getElem?_some hl
                have hstep : b.applyCharOp row (CharOp.del col) =
                    { b with data := b.data.set (row + b.start) (ln.eraseIdx col),
                             modified := true,
                             history := ⟨Edit.deleteChar row col
                                           (ln.getD col (Char.ofNat 0)) :: b.history.edits,
                                         b.history.undos⟩ } := by
                  show b.deleteChar row col Action.Do = _
                  rw [deleteChar_eq Action.Do hl hc]
                  rfl
                rw [hstep] at h1 hlen hdata hstart hpath hedits hundos ⊢
                have hb2l : b2.data[row + b2.start]? = some (ln.eraseIdx col) := by
                  rw [hdata, hstart]
                  exact List.getElem?_set_self hidx
                have hb2c : col ≤ (ln.eraseIdx col).length := by
                  rw [List.length_eraseIdx_of_lt hc]
                  omega
                have hb2e : b2.history.edits =
                    Edit.deleteChar row col (ln.getD col (Char.ofNat 0)) :: b.history.edits :=
                  hedits
                have hu := undo_deleteChar_top hb2e hb2l hb2c
                refine ⟨n + 1, _, undoN_succ_of h1 hu, ?_, ?_, hstart, hpath, ?_, ?_⟩
                · rw [hlen]
                  simp only [List.length_cons]
                  omega
                · show b2.data.set (row + b2.start)
                      ((ln.eraseIdx col).insertIdx col (ln.getD col (Char.ofNat 0))) = b.data
                  rw [insertIdx_getD_eraseIdx _ _ _ hc, hdata, hstart, List.set_set]
                  exact set_getElem?_self _ _ _ hl
                · rfl
                · exact ⟨Edit.deleteChar row col (ln.getD col (Char.ofNat 0)) :: us, by
                    show Edit.deleteChar row col (ln.getD col (Char.ofNat 0)) ::
                        b2.history.undos = _
                    rw [hundos]
                    rfl⟩
              · have hid : b.applyCharOp row (CharOp.del col) = b := by
                  show b.deleteChar row col Action.Do = b
                  unfold Buffer.deleteChar
                  simp only [hl, if_neg hc]
                rw [hid] at h1 hlen hdata hstart hpath hedits hundos ⊢
                exact ⟨n, b2, h1, hlen, hdata, hstart, hpath, hedits, us, hundos⟩

/-- C3 (amended): for every sequence of `insert_char`/`delete_char`
operations with action `Do` on a single line in which each insertion's
column is at most the line's current length (so no insertion is recorded
with an out-of-range column), undoing once per recorded edit — i.e. until
the done stack is exhausted, starting from an empty history — restores
the buffer data and in particular the line's original content exactly. -/
theorem c3_single_line_undo (b : Buffer) (row : Nat) (ops : List CharOp)
    (hinit : b.history.edits = [])
    (hok : charOpsOk b row ops = true) :
    ((b.applyCharOps row ops).undoN
        (b.applyCharOps row ops).history.edits.length).map Buffer.data = some b.data ∧
    ((b.applyCharOps row ops).undoN
        (b.applyCharOps row ops).history.edits.length).map
      (fun b2 => b2.history.edits) = some ([] : List Edit) ∧
    ((b.applyCharOps row ops).undoN
        (b.applyCharOps row ops).history.edits.length).map
      (fun b2 => b2.getLine row) = some (b.getLine row) := by
  obtain ⟨n, b2, h1, hlen, hdata, hstart, _hpath, hedits, _us, _hundos⟩ :=
    charOps_undo_restores ops b row hok
  have hn : (b.applyCharOps row ops).history.edits.length = n := by
    rw [hlen, hinit]
    simp
  rw [hn, h1]
  have hgl : b2.getLine row = b.getLine row := by
    unfold Buffer.getLine
    rw [hdata, hstart]
  exact ⟨congrArg some hdata,
         congrArg some (show b2.history.edits = [] by rw [hedits, hinit]),
         congrArg some hgl⟩

/-- C3 witness: inserting `x` inside `ab` and deleting the first
character, then undoing twice, restores the line `ab`. -/
theorem c3_single_line_undo_witness :
    (((Buffer.fromData "f" [['a', 'b']]).applyCharOps 0
        [CharOp.ins 1 'x', CharOp.del 0]).undoN
      ((Buffer.fromData "f" [['a', 'b']]).applyCharOps 0
        [CharOp.ins 1 'x', CharOp.del 0]).history.edits.length).map Buffer.data =
      some [['a', 'b']] :=
  (c3_single_line_undo (Buffer.fromData "f" [['a', 'b']]) 0
    [CharOp.ins 1 'x', CharOp.del 0] rfl (by decide)).1

end Vision
